import Mathlib

/-!
Verification of the core token-decoding and bit-slicing engine of the
Python_excel repository (`logic.py`, plus the row-processing loop of
`main.py`'s `HexSlicerApp.process_column`).

Embedding conventions:
* A Python `str` is embedded as `List Char` (ASCII behaviour is modelled;
  every token the claims mention is ASCII).
* Python `int` is embedded as `Int` (arbitrary precision, as in Python).
* Python string primitives used by the source (`strip`, `lower`, `zfill`,
  `split`, slicing with possibly-negative indices, `'0' * n`) are embedded
  by the `py...`/`zfill`/`pysplit`/`pySlice` functions below, following
  CPython's documented semantics.
* CPython's `int(s, 16)` / `int(s)` parsers are embedded by `int_base16` /
  `int_base10`, including their acceptance of a leading sign, of a `0x`/`0X`
  prefix (base 16 only), and of single underscores between digits
  (PEP 515); a parse failure (Python `ValueError`) is `none`.
* Python `bin(v)[2:]` is embedded by `pybin_tail`; note that for a negative
  `v` CPython yields `'-0b...'`, whose `[2:]` keeps a stray `'b'`.
* Fallible code (`try`/`except`, `raise`) is embedded with `Option`/`Except`.
-/

/-- ASCII whitespace recognised by Python's `str.strip()`. -/
def pyIsSpace (c : Char) : Bool :=
  c = ' ' || c = '\t' || c = '\n' || c = '\r' || c = '\x0b' || c = '\x0c'

/-- Python `s.strip()`: remove leading and trailing whitespace. -/
def pystrip (s : List Char) : List Char :=
  ((s.dropWhile pyIsSpace).reverse.dropWhile pyIsSpace).reverse

/-- Python `s.lower()` (ASCII case folding). -/
def pylower (s : List Char) : List Char :=
  s.map Char.toLower

/-- Removal of one leading `"0x"` prefix, as done by the source after
lower-casing (`if val_str.startswith('0x'): val_str = val_str[2:]`). -/
def strip0x (s : List Char) : List Char :=
  match s with
  | '0' :: 'x' :: rest => rest
  | _ => s

/-- Python `s.zfill(width)`: left-pad with `'0'` to `width` characters;
zeros are inserted after a leading `'+'`/`'-'` sign when one is present. -/
def zfill (width : Nat) (s : List Char) : List Char :=
  if width ≤ s.length then s
  else
    match s with
    | [] => List.replicate width '0'
    | c :: rest =>
      if c = '+' || c = '-' then c :: (List.replicate (width - s.length) '0' ++ rest)
      else List.replicate (width - s.length) '0' ++ (c :: rest)

/-- Python `s.split(sep)` for a one-character separator: always returns a
non-empty list of pieces; `"".split(',') = [""]`. -/
def pysplit (s : List Char) (sep : Char) : List (List Char) :=
  match s with
  | [] => [[]]
  | c :: rest =>
    if c = sep then [] :: pysplit rest sep
    else
      match pysplit rest sep with
      | p :: ps => (c :: p) :: ps
      | [] => [[c]]

/-- Normalisation of one Python slice index against a string of length
`len`: negative indices count from the end, and everything is clamped
into `[0, len]`. -/
def pyIndex (len : Nat) (i : Int) : Nat :=
  if i < 0 then (i + len).toNat else min i.toNat len

/-- Python `s[a:b]` (step 1), with negative-index and clamping semantics. -/
def pySlice (s : List Char) (a b : Int) : List Char :=
  (s.take (pyIndex s.length b)).drop (pyIndex s.length a)

/-- One step of `slice_bits_custom`'s loop (`logic.py` lines 55-68): the
Python cursor `start` and the widths are arbitrary-precision integers. -/
def slice_bits_go (bs : List Char) : List Int → Int → List (List Char)
  | [], _ => []
  | bits :: rest, start =>
    (if (bs.length : Int) ≤ start then
        List.replicate bits.toNat '0'
      else if (bs.length : Int) < start + bits then
        pySlice bs start (bs.length : Int) ++
          List.replicate (bits - ((bs.length : Int) - start)).toNat '0'
      else
        zfill bits.toNat (pySlice bs start (start + bits)))
      :: slice_bits_go bs rest (start + bits)

/-- `logic.py` `slice_bits_custom(bin_str, bit_assignments)`: slice a
binary string according to custom bit assignments, zero-filling past the
end of the data.  Total by construction (the Python loop body cannot
raise: slicing, `'0' * n` and `zfill` are total on every `int`). -/
def slice_bits_custom (bin_str : List Char) (bit_assignments : List Int) : List (List Char) :=
  slice_bits_go bin_str bit_assignments 0

/-- The Slicer as the specification describes it (cursor over `Nat`
positions, three cases: past the end, straddling the end, inside).  This
is the spec-words definition used to state the refinement claims; the
source-derived definition is `slice_bits_go`/`slice_bits_custom`. -/
def sliceSpecGo (bw : List Char) : List Nat → Nat → List (List Char)
  | [], _ => []
  | w :: ws, start =>
    (if bw.length ≤ start then List.replicate w '0'
      else if bw.length < start + w then
        bw.drop start ++ List.replicate (w - (bw.length - start)) '0'
      else (bw.drop start).take w)
      :: sliceSpecGo bw ws (start + w)

/-- Spec-words Slicer with the cursor initialised to 0. -/
def sliceSpec (bw : List Char) (ws : List Nat) : List (List Char) :=
  sliceSpecGo bw ws 0

/-- The sixteen characters accepted as hexadecimal digits by the
classifier (`logic.py` line 32). -/
def hexChars : List Char :=
  ['0', '1', '2', '3', '4', '5', '6', '7', '8', '9'] ++ ['a', 'b', 'c', 'd', 'e', 'f']

/-- The characters that can occur in a hexadecimal but not in a binary
string (`logic.py` line 36). -/
def hexOnlyChars : List Char :=
  ['2', '3', '4', '5', '6', '7', '8'] ++ ['9', 'a', 'b', 'c', 'd', 'e', 'f']

/-- `logic.py` `is_likely_binary(value)`: decide whether a string is
likely a binary string rather than hex.  Total; `true` is the `Binary`
classification, `false` covers both `Hex` and `Invalid`. -/
def is_likely_binary (value : List Char) : Bool :=
  let val_str := strip0x (pylower (pystrip value))
  if !(val_str.all (fun c => hexChars.contains c)) then false
  else if val_str.any (fun c => hexOnlyChars.contains c) then false
  else decide (8 < val_str.length)

/-- `logic.py` `detect_bit_length(value)`: the bit length of a value.
Note the source takes `len(val_str)` of the merely whitespace-stripped
string — the `0x` prefix, when present, is not removed before counting. -/
def detect_bit_length (value : List Char) : Nat :=
  let val_str := pystrip value
  if is_likely_binary val_str then val_str.length else 32

/-- Value of one hexadecimal digit character, `none` otherwise. -/
def hexDigitVal (c : Char) : Option Nat :=
  if '0' ≤ c ∧ c ≤ '9' then some (c.toNat - 48)
  else if 'a' ≤ c ∧ c ≤ 'f' then some (c.toNat - 97 + 10)
  else if 'A' ≤ c ∧ c ≤ 'F' then some (c.toNat - 65 + 10)
  else none

/-- Value of one decimal digit character, `none` otherwise. -/
def decDigitVal (c : Char) : Option Nat :=
  if '0' ≤ c ∧ c ≤ '9' then some (c.toNat - 48)
  else none

/-- CPython digit-sequence scanner: digits of the given base with single
underscores allowed between digits (PEP 515); `acc` is the value read so
far and `last` records whether the previous character was a digit (an
underscore is legal only right after a digit, and the string may not end
in an underscore or be empty). -/
def pyDigitsGo (dv : Char → Option Nat) (base : Nat) : List Char → Nat → Bool → Option Nat
  | [], acc, last => if last then some acc else none
  | c :: rest, acc, last =>
    match dv c with
    | some d => pyDigitsGo dv base rest (base * acc + d) true
    | none => if c = '_' && last then pyDigitsGo dv base rest acc false else none

/-- Hexadecimal digit sequence (with PEP 515 underscores). -/
def parseHexDigits (s : List Char) : Option Nat :=
  pyDigitsGo hexDigitVal 16 s 0 false

/-- Decimal digit sequence (with PEP 515 underscores). -/
def parseDecDigits (s : List Char) : Option Nat :=
  pyDigitsGo decDigitVal 10 s 0 false

/-- After a `0x`/`0X` base prefix CPython allows one optional underscore
before the first digit. -/
def hexAfterPfx : List Char → Option Nat
  | '_' :: rest => parseHexDigits rest
  | rest => parseHexDigits rest

/-- Unsigned part of CPython `int(s, 16)`: an optional `0x`/`0X` prefix
followed by hex digits. -/
def parseHexMain (s : List Char) : Option Nat :=
  match s with
  | '0' :: 'x' :: rest => hexAfterPfx rest
  | '0' :: 'X' :: rest => hexAfterPfx rest
  | _ => parseHexDigits s

/-- CPython `int(s, 16)`: surrounding whitespace, an optional sign, an
optional `0x`/`0X` prefix, then hex digits; `none` models `ValueError`. -/
def int_base16 (s : List Char) : Option Int :=
  match pystrip s with
  | '+' :: r => (parseHexMain r).map (fun (n : Nat) => (n : Int))
  | '-' :: r => (parseHexMain r).map (fun (n : Nat) => -(n : Int))
  | r => (parseHexMain r).map (fun (n : Nat) => (n : Int))

/-- CPython `int(s)` (base 10): surrounding whitespace, an optional sign,
then decimal digits; no base prefix; `none` models `ValueError`. -/
def int_base10 (s : List Char) : Option Int :=
  match pystrip s with
  | '+' :: r => (parseDecDigits r).map (fun (n : Nat) => (n : Int))
  | '-' :: r => (parseDecDigits r).map (fun (n : Nat) => -(n : Int))
  | r => (parseDecDigits r).map (fun (n : Nat) => (n : Int))

/-- Fuel-driven binary-digit builder (structural recursion on the fuel so
that the kernel can evaluate it): digits of `n`, most significant first,
empty for 0, provided the fuel is at least `n`. -/
def binAuxFuel : Nat → Nat → List Char
  | 0, _ => []
  | fuel + 1, n =>
    if n = 0 then [] else binAuxFuel fuel (n / 2) ++ [if n % 2 = 1 then '1' else '0']

/-- Binary digits of a natural number, most significant first (empty for
0); mirrors how CPython's `bin` renders the magnitude. -/
def binAux (n : Nat) : List Char :=
  binAuxFuel n n

/-- CPython `bin(n)` for a natural number, without the `0b` prefix:
`"0"` for 0, the digits otherwise. -/
def natBinDigits (n : Nat) : List Char :=
  if n = 0 then ['0'] else binAux n

/-- CPython `bin(v)[2:]`: for `v ≥ 0` this is the binary expansion; for
`v < 0`, `bin` yields `'-0b...'` and `[2:]` keeps a stray `'b'` before
the digits of the magnitude. -/
def pybin_tail (v : Int) : List Char :=
  if v < 0 then 'b' :: binAux v.natAbs else natBinDigits v.toNat

/-- The canonical form `hex_to_32bit_bin` builds before parsing:
whitespace-stripped, lower-cased, one optional `0x` prefix removed. -/
def canonHex (tok : List Char) : List Char :=
  strip0x (pylower (pystrip tok))

/-- `logic.py` `hex_to_32bit_bin(hex_val)`: convert a hex value to a
32-bit binary string; the `try`/`except` around the body catches exactly
the `ValueError` of `int(hex_str, 16)` (the string operations are total)
and falls back to 32 zero characters. -/
def hex_to_32bit_bin (tok : List Char) : List Char :=
  match int_base16 (zfill 8 (canonHex tok)) with
  | some v => zfill 32 (pybin_tail v)
  | none => List.replicate 32 '0'

/-- Value of a pure hex-digit string (most significant digit first). -/
def hexVal (s : List Char) : Nat :=
  s.foldl (fun acc c => 16 * acc + (hexDigitVal c).getD 0) 0

/-- Evaluation of `int(p)` on each piece in order, as the list
comprehension in `parse_bit_assignments` does; the first `ValueError`
aborts the whole computation (`none`). -/
def intListOfPieces : List (List Char) → Option (List Int)
  | [] => some []
  | p :: ps =>
    match int_base10 p with
    | some v => (intListOfPieces ps).map (fun l => v :: l)
    | none => none

/-- The message of the `ValueError` re-raised by `parse_bit_assignments`. -/
def invalidMsg : String :=
  "Invalid bit assignments. Please use comma-separated integers."

/-- `logic.py` `parse_bit_assignments(assignment_str)`: strip the spec
string, split on commas, strip each piece, discard empty pieces, parse
each remaining piece with `int`; any `ValueError` is re-raised as the
human-readable `invalidMsg` error, producing no partial result. -/
def parse_bit_assignments (s : List Char) : Except String (List Int) :=
  let parts := pysplit (pystrip s) ','
  let pieces := (parts.map pystrip).filter (fun p => p ≠ [])
  match intListOfPieces pieces with
  | some l => Except.ok l
  | none => Except.error invalidMsg

/-- Python `range(start, stop, step)` for a positive step. -/
def pyrange (start stop step : Nat) : List Nat :=
  (List.range ((stop - start + step - 1) / step)).map (fun k => start + k * step)

/-- The uniform branch of `main.py` `HexSlicerApp.get_bit_assignments`
(lines 160-167): one chunk per `range(0, bit_length, slice_size)` index,
each of width `min(slice_size, bit_length - i)`. -/
def generate_uniform (bit_length slice_size : Nat) : List Nat :=
  (pyrange 0 bit_length slice_size).map (fun i => min slice_size (bit_length - i))

/-- `pandas` fact used by `process_column`: `df[col].astype(str)` maps a
missing value (NaN) to the string `"nan"`, and `pd.notna` is `true` on
every Python string.  A cell is `none` when the source spreadsheet cell
is absent. -/
def astype_str_cell : Option (List Char) → List Char
  | none => ['n', 'a', 'n']
  | some s => s

/-- `pd.notna` applied to a value that is already a Python string:
always `true` (only NaN/None-like values are "na", and `astype(str)` has
already turned those into real strings). -/
def pd_notna_str (_ : List Char) : Bool :=
  true

/-- One row of `main.py` `HexSlicerApp.process_column` (lines 230 and
251-277): the column is first passed through `astype(str)` (line 230),
then each value is tested with `pd.notna`, canonicalized according to the
known-binary-column flag and the classifier, and sliced; a value failing
`pd.notna` would produce one empty string per assignment. -/
def process_cell (isBinaryCol : Bool) (expectedBits : Nat)
    (bitAssignments : List Int) (cell : Option (List Char)) : List (List Char) :=
  let val := astype_str_cell cell
  if pd_notna_str val then
    let val_str := pystrip val
    let bin_str :=
      if isBinaryCol then zfill expectedBits val_str
      else if is_likely_binary val_str then zfill expectedBits val_str
      else hex_to_32bit_bin val_str
    slice_bits_custom bin_str bitAssignments
  else
    List.replicate bitAssignments.length []

/-- Append a suffix to the last piece of a piece list (helper for
relating `pysplit` applied before and after right-trimming). -/
def appendLastPiece (w : List Char) : List (List Char) → List (List Char)
  | [] => []
  | [p] => [p ++ w]
  | p :: ps => p :: appendLastPiece w ps

/-- Claim C10: for every string and every finite integer width list —
including zero or negative entries — the Slicer terminates without
raising and returns exactly one element per entry of `bit_assignments`. -/
theorem slicer_total_one_field_per_width (bs : List Char) (ws : List Int) :
    (slice_bits_custom bs ws).length = ws.length := by
  show (slice_bits_go bs ws 0).length = ws.length
  generalize (0 : Int) = start
  induction ws generalizing start with
  | nil => rfl
  | cons w rest ih => simp [slice_bits_go, ih]

/-- `zfill` does nothing when the string is already at least as long as
the requested width. -/
theorem zfill_of_le {w : Nat} {s : List Char} (h : w ≤ s.length) : zfill w s = s := by
  unfold zfill
  rw [if_pos h]

/-- `pyIndex` on a natural (non-negative) index just clamps it. -/
theorem pyIndex_natCast (len a : Nat) : pyIndex len (a : Int) = min a len := by
  unfold pyIndex
  rw [if_neg (by omega), Int.toNat_ofNat]

/-- `pySlice` on natural indices is `take`/`drop`. -/
theorem pySlice_natCast (s : List Char) (a b : Nat) :
    pySlice s (a : Int) (b : Int) =
      (s.take (min b s.length)).drop (min a s.length) := by
  unfold pySlice
  rw [pyIndex_natCast, pyIndex_natCast]

/-- On natural-number width lists the source Slicer loop computes exactly
the spec-words Slicer loop. -/
theorem slice_go_eq_specGo (bw : List Char) (ws : List Nat) (start : Nat) :
    slice_bits_go bw (ws.map (fun (w : Nat) => (w : Int))) (start : Int) = sliceSpecGo bw ws start := by
  induction ws generalizing start with
  | nil => rfl
  | cons w rest ih =>
    have hadv : (start : Int) + (w : Int) = ((start + w : Nat) : Int) := by push_cast; ring
    rw [List.map_cons, slice_bits_go, sliceSpecGo, hadv, ih]
    congr 1
    by_cases h1 : bw.length ≤ start
    · rw [if_pos (by exact_mod_cast h1), if_pos h1, Int.toNat_ofNat]
    · rw [if_neg (by exact_mod_cast h1), if_neg h1]
      have hlt : start < bw.length := by omega
      by_cases h2 : bw.length < start + w
      · rw [if_pos (by push_cast; omega), if_pos h2]
        have hs : pySlice bw (start : Int) ((bw.length : Nat) : Int) = bw.drop start := by
          rw [pySlice_natCast, Nat.min_self, List.take_length,
            Nat.min_eq_left (Nat.le_of_lt hlt)]
        rw [hs]
        congr 1
        congr 1
        omega
      · rw [if_neg (by push_cast; omega), if_neg h2]
        have hle : start + w ≤ bw.length := by omega
        rw [pySlice_natCast, Nat.min_eq_left hle, Nat.min_eq_left (Nat.le_of_lt hlt),
          List.drop_take, Int.toNat_ofNat]
        have hsub : start + w - start = w := by omega
        rw [hsub, zfill_of_le]
        rw [List.length_take, List.length_drop]
        omega

/-- The spec-words Slicer produces fields whose lengths are exactly the
requested widths, one per width, in order. -/
theorem sliceSpecGo_lengths (bw : List Char) (ws : List Nat) (start : Nat) :
    (sliceSpecGo bw ws start).map List.length = ws := by
  induction ws generalizing start with
  | nil => rfl
  | cons w rest ih =>
    simp only [sliceSpecGo, List.map_cons, ih]
    congr 1
    by_cases h1 : bw.length ≤ start
    · rw [if_pos h1, List.length_replicate]
    · rw [if_neg h1]
      by_cases h2 : bw.length < start + w
      · rw [if_pos h2, List.length_append, List.length_replicate, List.length_drop]
        omega
      · rw [if_neg h2, List.length_take, List.length_drop]
        omega

/-- Concatenating the spec-words Slicer's fields from cursor `start`
recovers the tail of the bit word when the widths exactly cover it. -/
theorem sliceSpecGo_flatten (bw : List Char) (ws : List Nat) (start : Nat)
    (hpos : ∀ w ∈ ws, 1 ≤ w) (hsum : start + ws.sum = bw.length) :
    (sliceSpecGo bw ws start).flatten = bw.drop start := by
  induction ws generalizing start with
  | nil =>
    simp only [List.sum_nil, Nat.add_zero] at hsum
    rw [hsum, List.drop_length]
    rfl
  | cons w rest ih =>
    have hw : 1 ≤ w := hpos w (List.mem_cons_self w rest)
    have hsum' : start + w + rest.sum = bw.length := by
      rw [List.sum_cons] at hsum
      omega
    have h1 : ¬ bw.length ≤ start := by omega
    have h2 : ¬ bw.length < start + w := by omega
    simp only [sliceSpecGo, List.flatten_cons]
    rw [if_neg h1, if_neg h2,
      ih (start + w) (fun x hx => hpos x (List.mem_cons_of_mem _ hx)) hsum']
    have hdd : bw.drop (start + w) = (bw.drop start).drop w := by
      rw [List.drop_drop]
    rw [hdd]
    exact List.take_append_drop w (bw.drop start)

/-- Claim C1: on a bit word and positive widths, the Slicer returns one
field per width in order, each of length exactly its width, computed by
the cursor/zero-padding policy the specification describes; it is total. -/
theorem slicer_fields_match_widths (bw : List Char) (ws : List Nat)
    (_hbits : ∀ c ∈ bw, c = '0' ∨ c = '1') (_hpos : ∀ w ∈ ws, 1 ≤ w) :
    slice_bits_custom bw (ws.map (fun (w : Nat) => (w : Int))) = sliceSpec bw ws ∧
    (slice_bits_custom bw (ws.map (fun (w : Nat) => (w : Int)))).map List.length = ws := by
  have h0 := slice_go_eq_specGo bw ws 0
  rw [Nat.cast_zero] at h0
  refine ⟨h0, ?_⟩
  rw [show slice_bits_custom bw (ws.map (fun (w : Nat) => (w : Int))) = sliceSpecGo bw ws 0 from h0]
  exact sliceSpecGo_lengths bw ws 0

/-- Witness for C1 at the concrete input of the specification's example
`slice("101", [2,2])`. -/
theorem slicer_fields_match_widths_witness :
    slice_bits_custom ("101".toList) ([2, 2].map (fun (w : Nat) => (w : Int))) = sliceSpec ("101".toList) [2, 2] ∧
    (slice_bits_custom ("101".toList) ([2, 2].map (fun (w : Nat) => (w : Int)))).map List.length = [2, 2] :=
  slicer_fields_match_widths ("101".toList) [2, 2] (by decide) (by decide)

/-- Claim C2: for a Binary token of length `L` (canonicalized by
left-zero-filling to `L`, which is the identity there) and positive widths
summing to `L`, concatenating the Slicer's fields reconstructs the token. -/
theorem slicer_round_trip (tok : List Char) (ws : List Nat)
    (_hbits : ∀ c ∈ tok, c = '0' ∨ c = '1') (hpos : ∀ w ∈ ws, 1 ≤ w)
    (hsum : ws.sum = tok.length) :
    (slice_bits_custom (zfill tok.length tok) (ws.map (fun (w : Nat) => (w : Int)))).flatten = tok := by
  rw [zfill_of_le (Nat.le_refl _)]
  have h0 := slice_go_eq_specGo tok ws 0
  rw [Nat.cast_zero] at h0
  rw [show slice_bits_custom tok (ws.map (fun (w : Nat) => (w : Int))) = sliceSpecGo tok ws 0 from h0,
    sliceSpecGo_flatten tok ws 0 hpos (by omega), List.drop_zero]

/-- Witness for C2 at a 9-character Binary-classified token with widths
`[4,3,2]`. -/
theorem slicer_round_trip_witness :
    (slice_bits_custom (zfill ("110100101".toList).length ("110100101".toList))
      ([4, 3, 2].map (fun (w : Nat) => (w : Int)))).flatten = "110100101".toList :=
  slicer_round_trip ("110100101".toList) [4, 3, 2] (by decide) (by decide) (by decide)

/-- Claim C3: the classifier decides `Binary` (`true`) exactly when the
canonical form of the token — whitespace-trimmed, lower-cased, one
optional leading `0x` removed — consists only of `'0'`/`'1'` and is
strictly longer than 8 characters; an all-0/1 string of 8 or fewer
characters is therefore not `Binary` (it is resolved as hex downstream).
The function is total: every input yields `true` or `false`. -/
theorem classifier_binary_iff (tok : List Char) :
    is_likely_binary tok =
      ((strip0x (pylower (pystrip tok))).all (fun c => c == '0' || c == '1') &&
        decide (8 < (strip0x (pylower (pystrip tok))).length)) := by
  simp only [is_likely_binary]
  set s := strip0x (pylower (pystrip tok)) with hs
  by_cases h : s.all (fun c => c == '0' || c == '1') = true
  · have hall : s.all (fun c => hexChars.contains c) = true := by
      rw [List.all_eq_true] at h ⊢
      intro c hc
      have hc01 := h c hc
      simp only [Bool.or_eq_true, beq_iff_eq] at hc01
      rcases hc01 with h0 | h1
      · rw [h0]; decide
      · rw [h1]; decide
    have hany : s.any (fun c => hexOnlyChars.contains c) = false := by
      rw [List.any_eq_false]
      intro c hc
      have hc01 := (List.all_eq_true.mp h) c hc
      simp only [Bool.or_eq_true, beq_iff_eq] at hc01
      rcases hc01 with h0 | h1
      · rw [h0]; decide
      · rw [h1]; decide
    rw [h, hall, hany]
    simp
  · have hfalse : s.all (fun c => c == '0' || c == '1') = false := by
      rwa [Bool.not_eq_true] at h
    rw [hfalse, Bool.false_and]
    rcases List.all_eq_false.mp hfalse with ⟨c, hcmem, hcprop⟩
    by_cases hhex : s.all (fun d => hexChars.contains d) = true
    · have hcmemhex : c ∈ hexChars := by
        have := (List.all_eq_true.mp hhex) c hcmem
        simpa using this
      have hconly : hexOnlyChars.contains c = true := by
        simp only [hexChars, List.mem_append, List.mem_cons, List.not_mem_nil,
          or_false] at hcmemhex
        simp only [Bool.or_eq_true, beq_iff_eq, not_or] at hcprop
        rcases hcmemhex with
          (rfl | rfl | rfl | rfl | rfl | rfl | rfl | rfl | rfl | rfl) |
            (rfl | rfl | rfl | rfl | rfl | rfl) <;>
          simp_all <;> decide
      have hany : s.any (fun d => hexOnlyChars.contains d) = true :=
        List.any_eq_true.mpr ⟨c, hcmem, hconly⟩
      rw [hhex, hany]
      simp
    · have hhex' : s.all (fun d => hexChars.contains d) = false := by
        rwa [Bool.not_eq_true] at hhex
      rw [hhex']
      simp

/-- `dropWhile` removes exactly the longest satisfying prefix. -/
theorem dropWhile_drop_len (p : Char → Bool) (x : List Char) :
    List.dropWhile p x = x.drop (x.takeWhile p).length := by
  have h := List.takeWhile_append_dropWhile p x
  calc List.dropWhile p x
      = ((x.takeWhile p) ++ (x.dropWhile p)).drop (x.takeWhile p).length := by
        rw [List.drop_left]
    _ = x.drop (x.takeWhile p).length := by rw [h]

/-- A list that `dropWhile` leaves unchanged has all its prefixes left
unchanged by `dropWhile` as well. -/
theorem dropWhile_take_of_self {p : Char → Bool} {l : List Char}
    (h : List.dropWhile p l = l) (n : Nat) :
    List.dropWhile p (l.take n) = l.take n := by
  cases l with
  | nil => simp
  | cons c rest =>
    cases n with
    | zero => rfl
    | succ m =>
      have hpc : p c = false := by
        rw [List.dropWhile_cons] at h
        by_cases hb : p c = true
        · rw [if_pos hb] at h
          have hlen := congrArg List.length h
          have hle : (List.dropWhile p rest).length ≤ rest.length := by
            have hh := congrArg List.length (List.takeWhile_append_dropWhile p rest)
            rw [List.length_append] at hh
            omega
          simp only [List.length_cons] at hlen
          omega
        · rwa [Bool.not_eq_true] at hb
      have htake : (c :: rest).take (m + 1) = c :: rest.take m := rfl
      rw [htake, List.dropWhile_cons, hpc]
      simp

/-- Trimming on the right is taking an initial segment. -/
theorem trimRight_eq_take (p : Char → Bool) (A : List Char) :
    (List.dropWhile p A.reverse).reverse =
      A.take (A.length - (A.reverse.takeWhile p).length) := by
  rw [dropWhile_drop_len, List.reverse_drop, List.reverse_reverse, List.length_reverse]

/-- Python `strip` is idempotent. -/
theorem pystrip_idem (s : List Char) : pystrip (pystrip s) = pystrip s := by
  have hA : List.dropWhile pyIsSpace (s.dropWhile pyIsSpace) = s.dropWhile pyIsSpace :=
    List.dropWhile_idempotent pyIsSpace s
  have ht : List.dropWhile pyIsSpace (pystrip s) = pystrip s := by
    unfold pystrip
    rw [trimRight_eq_take]
    exact dropWhile_take_of_self hA _
  show ((List.dropWhile pyIsSpace (pystrip s)).reverse.dropWhile pyIsSpace).reverse = pystrip s
  rw [ht]
  unfold pystrip
  rw [List.reverse_reverse, List.dropWhile_idempotent]

/-- Claim C6 (amended): with no caller override, `detect_bit_length`
returns, for a `Binary`-classified token, the token's length after
whitespace stripping only — a `0x` prefix, when present, is counted in
the length; when the stripped-and-lowered token carries no `0x` prefix
this coincides with the length after prefix stripping, as the original
claim stated.  For `Hex`- or `Invalid`-classified tokens it returns the
fixed value 32. -/
theorem detect_bit_length_rule (tok : List Char) :
    (is_likely_binary tok = true → detect_bit_length tok = (pystrip tok).length) ∧
    (is_likely_binary tok = false → detect_bit_length tok = 32) ∧
    (is_likely_binary tok = true →
      strip0x (pylower (pystrip tok)) = pylower (pystrip tok) →
      detect_bit_length tok = (strip0x (pylower (pystrip tok))).length) := by
  have hinv : is_likely_binary (pystrip tok) = is_likely_binary tok := by
    simp only [is_likely_binary]
    rw [pystrip_idem]
  refine ⟨?_, ?_, ?_⟩
  · intro h
    simp only [detect_bit_length]
    rw [hinv, h]
    simp
  · intro h
    simp only [detect_bit_length]
    rw [hinv, h]
    simp
  · intro h hnopfx
    simp only [detect_bit_length]
    rw [hinv, h, hnopfx]
    simp only [if_true]
    simp only [pylower, List.length_map]

/-- Witness for C6 at the 9-digit binary token of the specification's
examples (`Binary`-classified, no prefix). -/
theorem detect_bit_length_rule_witness :
    detect_bit_length ("111111111".toList) =
      (strip0x (pylower (pystrip ("111111111".toList)))).length :=
  (detect_bit_length_rule ("111111111".toList)).2.2 (by decide) (by decide)

/-- Claim C6 counterexample: the token `"0x111111111"` is classified
`Binary` (9 binary digits after prefix stripping), yet `detect_bit_length`
returns 11 — the length including the two prefix characters — and not the
length 9 after 0x-prefix stripping that the claim requires. -/
theorem detect_bit_length_prefix_cex :
    is_likely_binary ("0x111111111".toList) = true ∧
    detect_bit_length ("0x111111111".toList) = 11 ∧
    (strip0x (pylower (pystrip ("0x111111111".toList)))).length = 9 ∧
    (11 : Nat) ≠ 9 := by decide

/-- A hexadecimal digit character is not whitespace. -/
theorem hexDigit_not_space {x : Char} (h : (hexDigitVal x).isSome = true) :
    pyIsSpace x = false := by
  by_contra hx
  have hx' : pyIsSpace x = true := by rwa [Bool.not_eq_false] at hx
  simp only [pyIsSpace, Bool.or_eq_true, decide_eq_true_eq] at hx'
  rcases hx' with ((((rfl | rfl) | rfl) | rfl) | rfl) | rfl <;> exact absurd h (by decide)

/-- `dropWhile` is the identity on a list none of whose elements satisfy
the predicate. -/
theorem dropWhile_eq_self_of_all {p : Char → Bool} {s : List Char}
    (h : ∀ c ∈ s, p c = false) : List.dropWhile p s = s := by
  cases s with
  | nil => rfl
  | cons c rest =>
    rw [List.dropWhile_cons, h c (List.mem_cons_self c rest)]
    simp

/-- `pystrip` is the identity on a string with no whitespace characters. -/
theorem pystrip_of_no_space {s : List Char} (h : ∀ c ∈ s, pyIsSpace c = false) :
    pystrip s = s := by
  unfold pystrip
  rw [dropWhile_eq_self_of_all h,
    dropWhile_eq_self_of_all (fun c hc => h c (List.mem_reverse.mp hc)),
    List.reverse_reverse]

/-- `zfill` on a string whose first character is not a sign pads plainly
on the left. -/
theorem zfill_no_sign (w : Nat) (d : Char) (t : List Char)
    (hd : (d = '+' || d = '-') = false) :
    zfill w (d :: t) = List.replicate (w - (d :: t).length) '0' ++ (d :: t) := by
  by_cases h : w ≤ (d :: t).length
  · rw [zfill_of_le h, Nat.sub_eq_zero_of_le h, List.replicate_zero, List.nil_append]
  · unfold zfill
    rw [if_neg h]
    simp only [hd]
    simp

/-- Length of a `zfill`ed string. -/
theorem zfill_length (w : Nat) (s : List Char) :
    (zfill w s).length = max w s.length := by
  unfold zfill
  by_cases h : w ≤ s.length
  · rw [if_pos h]
    omega
  · rw [if_neg h]
    cases s with
    | nil => simp
    | cons c rest =>
      by_cases hc : (c = '+' || c = '-') = true
      · simp only [hc]
        simp
        omega
      · have hc' : (c = '+' || c = '-') = false := by rwa [Bool.not_eq_true] at hc
        simp only [hc']
        simp
        omega

/-- Every character of a string survives into its `zfill`. -/
theorem mem_zfill {a : Char} {s : List Char} (w : Nat) (h : a ∈ s) : a ∈ zfill w s := by
  unfold zfill
  by_cases hw : w ≤ s.length
  · rwa [if_pos hw]
  · rw [if_neg hw]
    cases s with
    | nil => cases h
    | cons c rest =>
      by_cases hc : (c = '+' || c = '-') = true
      · simp only [hc]
        rw [if_pos trivial]
        simp only [List.mem_cons, List.mem_append, List.mem_replicate] at h ⊢
        tauto
      · have hc' : (c = '+' || c = '-') = false := by rwa [Bool.not_eq_true] at hc
        simp only [hc']
        rw [if_neg (by decide)]
        simp only [List.mem_cons, List.mem_append, List.mem_replicate] at h ⊢
        tauto

/-- The digit scanner on an all-digit tail, continuing after a digit. -/
theorem pyDigitsGo_hex_true {s : List Char}
    (hall : ∀ c ∈ s, (hexDigitVal c).isSome = true) (acc : Nat) :
    pyDigitsGo hexDigitVal 16 s acc true =
      some (s.foldl (fun a c => 16 * a + (hexDigitVal c).getD 0) acc) := by
  induction s generalizing acc with
  | nil => rfl
  | cons c rest ih =>
    obtain ⟨d, hd⟩ := Option.isSome_iff_exists.mp (hall c (List.mem_cons_self c rest))
    simp only [pyDigitsGo, hd, List.foldl_cons, Option.getD_some]
    exact ih (fun x hx => hall x (List.mem_cons_of_mem _ hx)) (16 * acc + d)

/-- The digit scanner accepts a non-empty all-digit string and computes
its base-16 value. -/
theorem parseHexDigits_all_digits {s : List Char} (hne : s ≠ [])
    (hall : ∀ c ∈ s, (hexDigitVal c).isSome = true) :
    parseHexDigits s = some (hexVal s) := by
  unfold parseHexDigits hexVal
  cases s with
  | nil => exact absurd rfl hne
  | cons c rest =>
    obtain ⟨d, hd⟩ := Option.isSome_iff_exists.mp (hall c (List.mem_cons_self c rest))
    simp only [pyDigitsGo, hd, List.foldl_cons, Option.getD_some]
    exact pyDigitsGo_hex_true (fun x hx => hall x (List.mem_cons_of_mem _ hx)) _

/-- On an all-digit string the `0x`-prefix branch of `parseHexMain`
cannot fire. -/
theorem parseHexMain_digits {s : List Char}
    (hall : ∀ c ∈ s, (hexDigitVal c).isSome = true) :
    parseHexMain s = parseHexDigits s := by
  unfold parseHexMain
  split
  · exact absurd (hall 'x' (by simp)) (by decide)
  · exact absurd (hall 'X' (by simp)) (by decide)
  · rfl

/-- Leading zero characters do not change the value of a hex-digit
string. -/
theorem hexVal_replicate_zero_append (k : Nat) (s : List Char) :
    hexVal (List.replicate k '0' ++ s) = hexVal s := by
  induction k with
  | zero => rfl
  | succ m ih =>
    have h0 : 16 * 0 + (hexDigitVal '0').getD 0 = 0 := by decide
    calc hexVal (List.replicate (m + 1) '0' ++ s)
        = (List.replicate m '0' ++ s).foldl
            (fun a c => 16 * a + (hexDigitVal c).getD 0)
            (16 * 0 + (hexDigitVal '0').getD 0) := by
          rw [List.replicate_succ, List.cons_append]
          rfl
      _ = hexVal (List.replicate m '0' ++ s) := by rw [h0]; rfl
      _ = hexVal s := ih

/-- `bin(v)[2:]` on a non-negative value is the plain binary expansion. -/
theorem pybin_tail_natCast (n : Nat) : pybin_tail (n : Int) = natBinDigits n := by
  unfold pybin_tail
  rw [if_neg (by omega), Int.toNat_ofNat]

/-- The fuel argument of `binAuxFuel` is irrelevant once it is at least
the number being rendered. -/
theorem binAuxFuel_congr : ∀ f1 f2 n : Nat, n ≤ f1 → n ≤ f2 →
    binAuxFuel f1 n = binAuxFuel f2 n := by
  intro f1
  induction f1 with
  | zero =>
    intro f2 n h1 h2
    have hn : n = 0 := by omega
    subst hn
    cases f2 with
    | zero => rfl
    | succ m => simp [binAuxFuel]
  | succ g ih =>
    intro f2 n h1 h2
    cases f2 with
    | zero =>
      have hn : n = 0 := by omega
      subst hn
      simp [binAuxFuel]
    | succ m =>
      by_cases hn : n = 0
      · subst hn
        simp [binAuxFuel]
      · simp only [binAuxFuel, if_neg hn]
        congr 1
        exact ih m (n / 2) (by omega) (by omega)

/-- Unfolding equation for `binAux` on positive input. -/
theorem binAux_eq {n : Nat} (h : 0 < n) :
    binAux n = binAux (n / 2) ++ [if n % 2 = 1 then '1' else '0'] := by
  unfold binAux
  cases n with
  | zero => omega
  | succ m =>
    show binAuxFuel (m + 1) (m + 1) = _
    rw [show binAuxFuel (m + 1) (m + 1) =
        binAuxFuel m ((m + 1) / 2) ++ [if (m + 1) % 2 = 1 then '1' else '0'] from by
      simp [binAuxFuel]]
    congr 1
    exact binAuxFuel_congr m ((m + 1) / 2) ((m + 1) / 2) (by omega) (Nat.le_refl _)

/-- A number at least `2 ^ k` has more than `k` binary digits. -/
theorem binAux_length_gt {k n : Nat} (h : 2 ^ k ≤ n) : k < (binAux n).length := by
  induction k generalizing n with
  | zero =>
    have hn : 0 < n := by simpa using h
    rw [binAux_eq hn, List.length_append]
    simp
  | succ j ih =>
    have hpow : 0 < 2 ^ (j + 1) := Nat.pos_pow_of_pos _ (by omega)
    have hn : 0 < n := by omega
    rw [binAux_eq hn, List.length_append]
    have hdiv : 2 ^ j ≤ n / 2 := by
      rw [Nat.le_div_iff_mul_le (by omega)]
      rw [pow_succ] at h
      omega
    have := ih hdiv
    simp only [List.length_singleton]
    omega

/-- The binary rendering of a positive number contains a `'1'`. -/
theorem one_mem_binAux : ∀ n : Nat, 0 < n → '1' ∈ binAux n := by
  intro n
  induction n using Nat.strong_induction_on with
  | _ n ih =>
    intro h
    rw [binAux_eq h]
    by_cases h2 : n / 2 = 0
    · have hn1 : n = 1 := by omega
      subst hn1
      decide
    · exact List.mem_append.mpr (Or.inl (ih (n / 2) (by omega) (by omega)))

/-- Claim C4 (amended): for every token whose canonical form — trimmed,
lower-cased, one optional `0x` prefix removed — is a non-empty string of
hexadecimal digits, `hex_to_32bit_bin` returns the binary expansion of
its base-16 value left-zero-padded to at least 32 characters; when the
value is at least `2^32` (more than 8 significant hex digits) the result
is strictly longer than 32 characters and is never truncated. -/
theorem hex_decode_value (tok : List Char)
    (h1 : canonHex tok ≠ [])
    (h2 : ∀ c ∈ canonHex tok, (hexDigitVal c).isSome = true) :
    hex_to_32bit_bin tok = zfill 32 (natBinDigits (hexVal (canonHex tok))) ∧
    32 ≤ (hex_to_32bit_bin tok).length ∧
    (2 ^ 32 ≤ hexVal (canonHex tok) → 32 < (hex_to_32bit_bin tok).length) := by
  obtain ⟨d, t, hdc⟩ : ∃ d t, canonHex tok = d :: t := by
    cases hc : canonHex tok with
    | nil => exact absurd hc h1
    | cons d t => exact ⟨d, t, rfl⟩
  have hd_digit : (hexDigitVal d).isSome = true :=
    h2 d (by rw [hdc]; exact List.mem_cons_self d t)
  have hd_nosign : (d = '+' || d = '-') = false := by
    by_contra hb
    have hb' : (d = '+' || d = '-') = true := by rwa [Bool.not_eq_false] at hb
    simp only [Bool.or_eq_true, decide_eq_true_eq] at hb'
    rcases hb' with rfl | rfl <;> exact absurd hd_digit (by decide)
  have hzfill : zfill 8 (canonHex tok) =
      List.replicate (8 - (canonHex tok).length) '0' ++ canonHex tok := by
    rw [hdc]
    exact zfill_no_sign 8 d t hd_nosign
  have hall' : ∀ x ∈ zfill 8 (canonHex tok), (hexDigitVal x).isSome = true := by
    rw [hzfill]
    intro x hx
    rcases List.mem_append.mp hx with hx | hx
    · rw [List.eq_of_mem_replicate hx]; decide
    · exact h2 x hx
  have hne' : zfill 8 (canonHex tok) ≠ [] := by
    rw [hzfill, hdc]
    simp
  have hstrip : pystrip (zfill 8 (canonHex tok)) = zfill 8 (canonHex tok) :=
    pystrip_of_no_space (fun x hx => hexDigit_not_space (hall' x hx))
  obtain ⟨e, u, hzu, he⟩ :
      ∃ e u, zfill 8 (canonHex tok) = e :: u ∧ (e = '+' || e = '-') = false := by
    rw [hzfill, hdc]
    cases hk : 8 - (d :: t).length with
    | zero =>
      exact ⟨d, t, by rw [List.replicate_zero, List.nil_append], hd_nosign⟩
    | succ m =>
      exact ⟨'0', List.replicate m '0' ++ (d :: t),
        by rw [List.replicate_succ, List.cons_append], by decide⟩
  have hvalz : hexVal (zfill 8 (canonHex tok)) = hexVal (canonHex tok) := by
    rw [hzfill]
    exact hexVal_replicate_zero_append _ _
  have hparse : int_base16 (zfill 8 (canonHex tok)) =
      some ((hexVal (canonHex tok) : Nat) : Int) := by
    unfold int_base16
    rw [hstrip]
    rw [hzu]
    split
    · next r heq =>
      rw [List.cons.injEq] at heq
      have := heq.1
      subst this
      exact absurd he (by decide)
    · next r heq =>
      rw [List.cons.injEq] at heq
      have := heq.1
      subst this
      exact absurd he (by decide)
    · rw [← hzu, parseHexMain_digits hall', parseHexDigits_all_digits hne' hall', hvalz]
      rfl
  have hbin : hex_to_32bit_bin tok = zfill 32 (natBinDigits (hexVal (canonHex tok))) := by
    unfold hex_to_32bit_bin
    rw [hparse]
    show zfill 32 (pybin_tail ((hexVal (canonHex tok) : Nat) : Int)) = _
    rw [pybin_tail_natCast]
  refine ⟨hbin, ?_, ?_⟩
  · rw [hbin, zfill_length]
    omega
  · intro hge
    have hpos : 0 < hexVal (canonHex tok) :=
      Nat.lt_of_lt_of_le (Nat.pos_pow_of_pos 32 (by omega)) hge
    have h0 : hexVal (canonHex tok) ≠ 0 := by omega
    have hlen : 32 < (natBinDigits (hexVal (canonHex tok))).length := by
      unfold natBinDigits
      rw [if_neg h0]
      exact binAux_length_gt hge
    rw [hbin, zfill_length]
    omega

/-- Witness for C4 at the specification's example `decode_hex("FF")`:
24 zero characters followed by eight `'1'` characters. -/
theorem hex_decode_value_witness :
    hex_to_32bit_bin ("FF".toList) = zfill 32 (natBinDigits (hexVal (canonHex ("FF".toList)))) ∧
    hex_to_32bit_bin ("FF".toList) = List.replicate 24 '0' ++ List.replicate 8 '1' := by
  have h := hex_decode_value ("FF".toList) (by decide) (by decide)
  exact ⟨h.1, by rw [h.1]; decide⟩

/-- Claim C4 counterexample: the token `"0x0xff"` — whose canonical form
`"0xff"` parses as the base-16 integer 255 (CPython `int` accepts a `0x`
prefix at base 16) — is mapped by `hex_to_32bit_bin` to the 32-zero
fallback rather than to the padded binary expansion of 255, because the
`zfill(8)` applied before parsing corrupts `"0xff"` into `"00000xff"`. -/
theorem hex_decode_claim_cex :
    int_base16 (canonHex ("0x0xff".toList)) = some 255 ∧
    hex_to_32bit_bin ("0x0xff".toList) = List.replicate 32 '0' ∧
    List.replicate 32 '0' ≠ zfill 32 (natBinDigits 255) := by decide

/-- Claim C5 (amended): `hex_to_32bit_bin` returns the 32-zero fallback
exactly when the canonical form, after the `zfill(8)` the source applies,
fails to parse as a base-16 integer or parses to the value 0; it never
raises to the caller (the function is total). -/
theorem hex_fallback_iff (tok : List Char) :
    hex_to_32bit_bin tok = List.replicate 32 '0' ↔
      (int_base16 (zfill 8 (canonHex tok)) = none ∨
        int_base16 (zfill 8 (canonHex tok)) = some 0) := by
  unfold hex_to_32bit_bin
  split
  · next v hv =>
    rw [hv]
    constructor
    · intro hz
      right
      rcases lt_trichotomy v 0 with hneg | hzero | hpos
      · exfalso
        have hb : 'b' ∈ zfill 32 (pybin_tail v) := by
          apply mem_zfill
          unfold pybin_tail
          rw [if_pos hneg]
          exact List.mem_cons_self _ _
        rw [hz] at hb
        exact absurd (List.eq_of_mem_replicate hb) (by decide)
      · rw [hzero]
      · exfalso
        have h1 : '1' ∈ zfill 32 (pybin_tail v) := by
          apply mem_zfill
          unfold pybin_tail
          rw [if_neg (by omega)]
          unfold natBinDigits
          rw [if_neg (by omega)]
          exact one_mem_binAux v.toNat (by omega)
        rw [hz] at h1
        exact absurd (List.eq_of_mem_replicate h1) (by decide)
    · intro h
      rcases h with h | h
      · exact absurd h (by simp)
      · rw [Option.some.injEq] at h
        rw [h]
        decide
  · next hv =>
    rw [hv]
    simp

/-- Claim C5 counterexample: `"_ff"` fails to parse as a base-16 integer
(CPython rejects a leading underscore), so the claim requires the 32-zero
fallback; but the source's `zfill(8)` turns it into `"00000_ff"`, which
CPython parses as 255 — the function returns a non-zero bit word. -/
theorem hex_fallback_cex :
    int_base16 (canonHex ("_ff".toList)) = none ∧
    hex_to_32bit_bin ("_ff".toList) ≠ List.replicate 32 '0' ∧
    hex_to_32bit_bin ("_ff".toList) = List.replicate 24 '0' ++ List.replicate 8 '1' := by
  decide

/-- Claim C9 (amended): uniform-chunk generation produces only widths
between 1 and the chunk size when the chunk size is at least 1; explicit
width-spec parsing, by contrast, does not enforce positivity (see the
counterexample), so the planner as a whole can construct zero or negative
widths. -/
theorem uniform_widths_positive (bit_length slice_size : Nat)
    (h : 1 ≤ slice_size) :
    ∀ w ∈ generate_uniform bit_length slice_size, 1 ≤ w ∧ w ≤ slice_size := by
  intro w hw
  unfold generate_uniform pyrange at hw
  simp only [List.map_map, List.mem_map, List.mem_range, Function.comp] at hw
  obtain ⟨k, hk, hwk⟩ := hw
  have h1 : (k + 1) * slice_size ≤
      ((bit_length - 0 + slice_size - 1) / slice_size) * slice_size :=
    Nat.mul_le_mul_right slice_size hk
  have h2 : ((bit_length - 0 + slice_size - 1) / slice_size) * slice_size ≤
      bit_length - 0 + slice_size - 1 :=
    Nat.div_mul_le_self _ _
  rw [Nat.succ_mul] at h1
  have hklt : k * slice_size < bit_length := by omega
  subst hwk
  constructor
  · omega
  · omega

/-- Witness for C9 at the specification's example
`generate_uniform(10, 4) = [4,4,2]`: the final, narrower chunk 2 is
still at least 1 and at most the chunk size. -/
theorem uniform_widths_positive_witness :
    (2 ∈ generate_uniform 10 4) ∧ (1 ≤ 2 ∧ 2 ≤ 4) :=
  ⟨by decide, uniform_widths_positive 10 4 (by decide) 2 (by decide)⟩

/-- Claim C9 counterexample: the explicit width spec `"0"` is parsed by
the planner into the width list `[0]`, whose entry is not ≥ 1 — the
planner performs no positivity check on explicit specs. -/
theorem planner_nonpositive_width_cex :
    parse_bit_assignments ("0".toList) = Except.ok [0] ∧ ¬ (1 ≤ (0 : Int)) :=
  ⟨rfl, by decide⟩

/-- Claim C7: an absent source cell does not produce empty-string fields.
`astype(str)` (main.py line 230) turns the missing value into the string
`"nan"` before the `pd.notna` test, so the row takes the token path,
`"nan"` classifies as invalid, the 32-zero fallback fires, and the output
record is four fields of eight `'0'` characters — not four empty strings
as the claim (and the dead `else` branch at lines 276-277) intends. -/
theorem absent_cell_zero_fills :
    process_cell false 32 [8, 8, 8, 8] none = List.replicate 4 (List.replicate 8 '0') ∧
    process_cell false 32 [8, 8, 8, 8] none ≠ List.replicate 4 ([] : List Char) := by
  decide

/-- `pysplit` never returns the empty list. -/
theorem pysplit_ne_nil (s : List Char) (sep : Char) : pysplit s sep ≠ [] := by
  cases s with
  | nil => simp [pysplit]
  | cons c rest =>
    unfold pysplit
    by_cases h : c = sep
    · rw [if_pos h]
      simp
    · rw [if_neg h]
      cases pysplit rest sep with
      | nil => simp
      | cons p ps => simp

/-- Splitting a separator-free string yields that string as the single
piece. -/
theorem pysplit_no_sep {s : List Char} {sep : Char}
    (h : ∀ c ∈ s, c ≠ sep) : pysplit s sep = [s] := by
  induction s with
  | nil => rfl
  | cons c rest ih =>
    unfold pysplit
    rw [if_neg (h c (List.mem_cons_self c rest))]
    rw [ih (fun x hx => h x (List.mem_cons_of_mem _ hx))]

/-- A list of whitespace characters strips to nothing. -/
theorem pystrip_all_space {w : List Char} (h : ∀ c ∈ w, pyIsSpace c = true) :
    pystrip w = [] := by
  unfold pystrip
  rw [List.dropWhile_eq_nil_iff.mpr h]
  rfl

/-- Stripping ignores a leading whitespace character. -/
theorem pystrip_cons_space {c : Char} (x : List Char) (h : pyIsSpace c = true) :
    pystrip (c :: x) = pystrip x := by
  unfold pystrip
  rw [List.dropWhile_cons, h]
  simp

/-- Stripping ignores a trailing run of whitespace. -/
theorem pystrip_append_space {x w : List Char} (h : ∀ c ∈ w, pyIsSpace c = true) :
    pystrip (x ++ w) = pystrip x := by
  unfold pystrip
  rw [List.dropWhile_append]
  by_cases hx : (List.dropWhile pyIsSpace x).isEmpty = true
  · rw [if_pos hx]
    rw [List.dropWhile_eq_nil_iff.mpr h]
    rw [List.isEmpty_iff.mp hx]
  · rw [if_neg hx]
    rw [List.reverse_append, List.dropWhile_append]
    rw [if_pos (by
      rw [List.isEmpty_iff]
      rw [List.dropWhile_eq_nil_iff]
      intro a ha
      exact h a (List.mem_reverse.mp ha))]

/-- `appendLastPiece` walks past a head piece when more pieces follow. -/
theorem appendLastPiece_cons₂ (w p q : List Char) (ps : List (List Char)) :
    appendLastPiece w (p :: q :: ps) = p :: appendLastPiece w (q :: ps) := rfl

/-- Splitting after appending a separator-free suffix appends that suffix
to the last piece. -/
theorem pysplit_append_right {sep : Char} {w : List Char}
    (hw : ∀ c ∈ w, c ≠ sep) :
    ∀ s : List Char, pysplit (s ++ w) sep = appendLastPiece w (pysplit s sep) := by
  intro s
  induction s with
  | nil =>
    rw [List.nil_append, pysplit_no_sep hw]
    show [w] = [[] ++ w]
    rw [List.nil_append]
  | cons c s' ih =>
    rw [List.cons_append]
    by_cases hc : c = sep
    · simp only [pysplit]
      rw [if_pos hc, if_pos hc, ih]
      cases hps : pysplit s' sep with
      | nil => exact absurd hps (pysplit_ne_nil s' sep)
      | cons q qs => rfl
    · simp only [pysplit, if_neg hc]
      rw [ih]
      cases hps : pysplit s' sep with
      | nil => exact absurd hps (pysplit_ne_nil s' sep)
      | cons q qs =>
        cases qs with
        | nil => rfl
        | cons q2 qs' => rfl

/-- Trimming each piece erases a whitespace suffix folded into the last
piece. -/
theorem map_pystrip_appendLastPiece {w : List Char}
    (h : ∀ c ∈ w, pyIsSpace c = true) :
    ∀ l : List (List Char), (appendLastPiece w l).map pystrip = l.map pystrip := by
  intro l
  induction l with
  | nil => rfl
  | cons p ps ih =>
    cases ps with
    | nil =>
      show [pystrip (p ++ w)] = [pystrip p]
      rw [pystrip_append_space h]
    | cons q qs =>
      rw [appendLastPiece_cons₂, List.map_cons, List.map_cons, ih]

/-- Trimming each piece erases a leading whitespace character of the
string being split. -/
theorem map_pystrip_pysplit_cons_space {c : Char} (h : pyIsSpace c = true)
    (s : List Char) :
    (pysplit (c :: s) ',').map pystrip = (pysplit s ',').map pystrip := by
  have hc : ¬ c = ',' := by
    intro hc
    subst hc
    exact absurd h (by decide)
  simp only [pysplit, if_neg hc]
  cases hps : pysplit s ',' with
  | nil => exact absurd hps (pysplit_ne_nil s ',')
  | cons p ps =>
    rw [List.map_cons, List.map_cons, pystrip_cons_space _ h]

/-- Trimming each piece erases a left strip of the string being split. -/
theorem map_pystrip_pysplit_dropWhile (s : List Char) :
    (pysplit (s.dropWhile pyIsSpace) ',').map pystrip =
      (pysplit s ',').map pystrip := by
  induction s with
  | nil => rfl
  | cons c rest ih =>
    by_cases h : pyIsSpace c = true
    · rw [List.dropWhile_cons, h, if_pos rfl, ih,
        ← map_pystrip_pysplit_cons_space h rest]
    · have h' : pyIsSpace c = false := by rwa [Bool.not_eq_true] at h
      rw [List.dropWhile_cons, h']
      simp

/-- Trimming each piece erases a right strip of the string being split. -/
theorem map_pystrip_pysplit_trimRight (x : List Char) :
    (pysplit ((x.reverse.dropWhile pyIsSpace).reverse) ',').map pystrip =
      (pysplit x ',').map pystrip := by
  have hx : (x.reverse.dropWhile pyIsSpace).reverse ++
      (x.reverse.takeWhile pyIsSpace).reverse = x := by
    rw [← List.reverse_append, List.takeWhile_append_dropWhile, List.reverse_reverse]
  have hwspace : ∀ c ∈ (x.reverse.takeWhile pyIsSpace).reverse, pyIsSpace c = true :=
    fun c hc => List.mem_takeWhile_imp (List.mem_reverse.mp hc)
  have hwsep : ∀ c ∈ (x.reverse.takeWhile pyIsSpace).reverse, c ≠ ',' := by
    intro c hc hcomma
    subst hcomma
    exact absurd (hwspace ',' hc) (by decide)
  conv_rhs => rw [← hx]
  rw [pysplit_append_right hwsep, map_pystrip_appendLastPiece hwspace]

/-- Splitting the stripped spec string and trimming pieces is the same as
splitting the raw spec string and trimming pieces. -/
theorem map_pystrip_pysplit_pystrip (s : List Char) :
    (pysplit (pystrip s) ',').map pystrip = (pysplit s ',').map pystrip := by
  have h1 : pystrip s = ((s.dropWhile pyIsSpace).reverse.dropWhile pyIsSpace).reverse := rfl
  rw [h1, map_pystrip_pysplit_trimRight (s.dropWhile pyIsSpace),
    map_pystrip_pysplit_dropWhile s]

/-- The piece-by-piece `int` evaluation fails exactly when some piece is
not a valid integer. -/
theorem intListOfPieces_none_iff (ps : List (List Char)) :
    intListOfPieces ps = none ↔ ∃ p ∈ ps, int_base10 p = none := by
  induction ps with
  | nil => simp [intListOfPieces]
  | cons p ps ih =>
    unfold intListOfPieces
    cases hp : int_base10 p with
    | none =>
      constructor
      · intro _
        exact ⟨p, List.mem_cons_self p ps, hp⟩
      · intro _
        rfl
    | some v =>
      show (intListOfPieces ps).map _ = none ↔ _
      constructor
      · intro h
        have hnone : intListOfPieces ps = none := by
          cases hq : intListOfPieces ps with
          | none => rfl
          | some l => rw [hq] at h; exact absurd h (by simp)
        rcases ih.mp hnone with ⟨q, hqmem, hqnone⟩
        exact ⟨q, List.mem_cons_of_mem _ hqmem, hqnone⟩
      · rintro ⟨q, hqmem, hqnone⟩
        rcases List.mem_cons.mp hqmem with rfl | hqmem2
        · rw [hp] at hqnone
          exact absurd hqnone (by simp)
        · rw [ih.mpr ⟨q, hqmem2, hqnone⟩]
          rfl

/-- When the piece-by-piece `int` evaluation succeeds it returns the
parsed integers in piece order. -/
theorem intListOfPieces_some_map (ps : List (List Char)) (l : List Int)
    (h : intListOfPieces ps = some l) :
    l = ps.map (fun p => (int_base10 p).getD 0) := by
  induction ps generalizing l with
  | nil =>
    unfold intListOfPieces at h
    rw [Option.some.injEq] at h
    rw [← h]
    rfl
  | cons p ps ih =>
    unfold intListOfPieces at h
    cases hp : int_base10 p with
    | none =>
      rw [hp] at h
      simp at h
    | some v =>
      rw [hp] at h
      cases hq : intListOfPieces ps with
      | none =>
        rw [hq] at h
        simp at h
      | some l2 =>
        rw [hq] at h
        simp only [Option.map_some', Option.some.injEq] at h
        rw [← h, List.map_cons, hp, Option.getD_some, ← ih l2 hq]

/-- Claim C8: width-spec parsing splits the raw spec string on commas,
trims each piece, discards empty pieces, and returns the parsed integers
in order; it fails with the `invalidMsg` error — and produces no partial
result — exactly when some remaining (non-empty, trimmed) piece is not a
valid integer; including the specification's two examples. -/
theorem parse_assignments_spec (s : List Char) :
    (parse_bit_assignments s = Except.error invalidMsg ↔
      ∃ p ∈ ((pysplit s ',').map pystrip).filter (fun p => p ≠ []),
        int_base10 p = none) ∧
    (∀ l, parse_bit_assignments s = Except.ok l →
      l = (((pysplit s ',').map pystrip).filter (fun p => p ≠ [])).map
        (fun p => (int_base10 p).getD 0)) ∧
    parse_bit_assignments ("8,8,8,8".toList) = Except.ok [8, 8, 8, 8] ∧
    parse_bit_assignments ("a,b".toList) = Except.error invalidMsg := by
  have hpieces : ((pysplit (pystrip s) ',').map pystrip).filter (fun p => p ≠ []) =
      ((pysplit s ',').map pystrip).filter (fun p => p ≠ []) := by
    rw [map_pystrip_pysplit_pystrip]
  refine ⟨?_, ?_, rfl, rfl⟩
  · simp only [parse_bit_assignments]
    rw [hpieces]
    cases hq : intListOfPieces
        (((pysplit s ',').map pystrip).filter (fun p => p ≠ [])) with
    | none =>
      constructor
      · intro _
        exact (intListOfPieces_none_iff _).mp hq
      · intro _
        rfl
    | some l =>
      constructor
      · intro h
        exact absurd h (by simp)
      · intro hex
        rw [(intListOfPieces_none_iff _).mpr hex] at hq
        exact absurd hq (by simp)
  · intro l hl
    simp only [parse_bit_assignments] at hl
    rw [hpieces] at hl
    cases hq : intListOfPieces
        (((pysplit s ',').map pystrip).filter (fun p => p ≠ [])) with
    | none =>
      rw [hq] at hl
      simp at hl
    | some l2 =>
      rw [hq] at hl
      simp only [Except.ok.injEq] at hl
      rw [← hl]
      exact intListOfPieces_some_map _ _ hq

/-- Witness for C8 at the specification's example `"8,8,8,8"`: the
returned list is the in-order parse of the trimmed non-empty pieces. -/
theorem parse_assignments_spec_witness :
    ([8, 8, 8, 8] : List Int) =
      ((((pysplit ("8,8,8,8".toList) ',').map pystrip).filter (fun p => p ≠ [])).map
        (fun p => (int_base10 p).getD 0)) :=
  (parse_assignments_spec ("8,8,8,8".toList)).2.1 [8, 8, 8, 8] rfl
